import Mathlib

/-!
Verification of the naive-input-lsp abbreviation-expansion server
(`src/main.rs`): a character trie (`Keymap`) loaded from a JSON-like
configuration document, and the completion handler that extracts the text
after the last backslash on the cursor's line and maps trie results into
positioned completion items.
-/

set_option autoImplicit false

namespace NaiveInputLsp

/-- JSON-like values, the shape of the configuration document
(`serde_json::Value`): strings, arrays, objects (fields given in the
map's iteration order), and everything else (`other`: numbers, booleans,
null). -/
inductive Json where
  | str (s : String)
  | arr (elems : List Json)
  | obj (fields : List (String × Json))
  | other

/-- `Value::as_str`: the string of a string value, `none` otherwise. -/
def Json.asStr : Json → Option String
  | .str s => some s
  | _ => none

/-- Whether a value is an object (`Value::as_object` succeeds). -/
def Json.isObj : Json → Bool
  | .obj _ => true
  | _ => false

/-- `Map::get` on an object: the first field with the given key. -/
def objGet : List (String × Json) → String → Option Json
  | [], _ => none
  | (k, v) :: rest, key => if k = key then some v else objGet rest key

/-- The trie: `struct Keymap { here: Vec<String>, cont: HashMap<char, Keymap> }`,
the children hash map modelled as an association list whose order is the
map's iteration order. -/
inductive Keymap where
  | mk (here : List String) (cont : List (Char × Keymap)) : Keymap

/-- The `here` field: replacement strings registered exactly at this node. -/
def Keymap.here : Keymap → List String
  | .mk h _ => h

/-- The `cont` field: one child per character. -/
def Keymap.cont : Keymap → List (Char × Keymap)
  | .mk _ c => c

/-- `HashMap::get` on a children map. -/
def lookupC : List (Char × Keymap) → Char → Option Keymap
  | [], _ => none
  | (c, k) :: rest, d => if c = d then some k else lookupC rest d

/-- `HashMap::insert` on a children map: replaces the binding when the key
is already present, otherwise adds a new one. -/
def insertC : List (Char × Keymap) → Char → Keymap → List (Char × Keymap)
  | [], c, v => [(c, v)]
  | (c', v') :: rest, c, v =>
      if c' = c then (c, v) :: rest else (c', v') :: insertC rest c v

/-- The marker handling at the top of `Keymap::load`:
`obj.get(">>").and_then(|a| a.as_array())`, then collecting exactly the
string elements of the array (non-strings are skipped). -/
def markerValues (fields : List (String × Json)) : List String :=
  match objGet fields ">>" with
  | some (Json.arr elems) => elems.filterMap Json.asStr
  | _ => []

mutual

/-- `Keymap::load`: `some` trie when the value is an object, `none`
otherwise. -/
def Keymap.load : Json → Option Keymap
  | Json.obj fields => some (Keymap.mk (markerValues fields) (loadCont [] fields))
  | _ => none

/-- The `for (k, v) in obj` loop of `Keymap::load`: every non-marker key
with a first character whose value loads as a trie is inserted under
that first character, in iteration order. -/
def loadCont (acc : List (Char × Keymap)) : List (String × Json) → List (Char × Keymap)
  | [] => acc
  | (k, v) :: rest =>
      if k = ">>" then loadCont acc rest
      else
        match k.toList with
        | [] => loadCont acc rest
        | c :: _ =>
          match Keymap.load v with
          | some z => loadCont (insertC acc c z) rest
          | none => loadCont acc rest

end

/-- `Keymap::new`: `load` with `unwrap_or` the empty trie. -/
def Keymap.new (j : Json) : Keymap :=
  (Keymap.load j).getD (Keymap.mk [] [])

mutual

/-- The local `flatten` of `Keymap::get`: for each entry of the map, its
node's `here` followed by the flattening of that node's own children,
then the remaining entries. -/
def flatten : List (Char × Keymap) → List String
  | [] => []
  | (_, k) :: rest => flattenNode k ++ flatten rest

/-- One loop iteration of `flatten`: the node's `here`, then its subtree. -/
def flattenNode : Keymap → List String
  | Keymap.mk h c => h ++ flatten c

end

/-- `Keymap::get`: follow `cont` one character at a time; a missing child
gives `[]`; once the prefix is exhausted, the node's `here` followed by
the flattened subtree below it. -/
def Keymap.get (t : Keymap) : List Char → List String
  | [] => t.here ++ flatten t.cont
  | c :: rest =>
      match lookupC t.cont c with
      | some k => k.get rest
      | none => []

/-- `Keymap::lookup`: `get` on the characters of the query string. -/
def Keymap.lookup (t : Keymap) (s : String) : List String :=
  t.get s.toList

/-- The walk `Keymap::get` performs before flattening: the node reached by
following `cont` along the given characters, if every step has a child. -/
def Keymap.walk (t : Keymap) : List Char → Option Keymap
  | [] => some t
  | c :: rest =>
      match lookupC t.cont c with
      | some k => k.walk rest
      | none => none

mutual

/-- A node together with every node below it, in the traversal order of
`flatten`. -/
def subNodes : Keymap → List Keymap
  | Keymap.mk h c => Keymap.mk h c :: subForest c

/-- Every node of every subtree of a children map. -/
def subForest : List (Char × Keymap) → List Keymap
  | [] => []
  | (_, k) :: rest => subNodes k ++ subForest rest

end

/-- An LSP position: zero-based line and character (`u32` in the
protocol). -/
structure Pos where
  line : Nat
  character : Nat
deriving DecidableEq

/-- The fields of the `CompletionItem` the handler builds: the label and
the single `TextEdit` (its range and replacement text). -/
structure CompletionItem where
  label : String
  startLine : Nat
  startChar : Nat
  endLine : Nat
  endChar : Nat
  newText : String
deriving DecidableEq

/-- `2^32`, the modulus of `u32` arithmetic. -/
def u32Mod : Nat := 4294967296

/-- Wrapping `u32` subtraction, the semantics of `-` on `u32` with
overflow checks off. -/
def wsub (a b : Nat) : Nat := (a % u32Mod + (u32Mod - b % u32Mod)) % u32Mod

/-- `str::len` of a run of characters: its UTF-8 byte length. -/
def utf8Len (cs : List Char) : Nat := (cs.map Char.utf8Size).sum

/-- `str::rsplit_once`: the pieces before and after the last occurrence
of the character, if it occurs. -/
def rsplitOnce : List Char → Char → Option (List Char × List Char)
  | [], _ => none
  | x :: xs, c =>
      match rsplitOnce xs c with
      | some (b, a) => some (x :: b, a)
      | none => if x = c then some ([], xs) else none

/-- A trailing carriage return removed, as `str::lines` does to each
piece that was terminated by a newline. -/
def stripCR (l : List Char) : List Char :=
  if l.getLast? = some '\r' then l.dropLast else l

/-- Split at every newline character, keeping the (possibly empty)
pieces between newlines. -/
def splitNl : List Char → List (List Char)
  | [] => [[]]
  | c :: rest =>
      if c = '\n' then [] :: splitNl rest
      else
        match splitNl rest with
        | [] => [[c]]
        | p :: ps => (c :: p) :: ps

/-- `str::lines`: the pieces between newlines, with a carriage return
preceding each newline stripped, and the final piece dropped when it is
empty. -/
def rustLines (doc : List Char) : List (List Char) :=
  match (splitNl doc).reverse with
  | [] => []
  | last :: revInit =>
      (revInit.reverse).map stripCR ++ (if last = [] then [] else [last])

/-- `DashMap::get` on the document store. -/
def findDoc : List (String × String) → String → Option String
  | [], _ => none
  | (u, d) :: rest, uri => if u = uri then some d else findDoc rest uri

/-- One `CompletionItem` of the handler: label `format!("{} {}", prefix, s)`,
edit range from column `character - prefix.len() - 1` (wrapping `u32`
subtraction; `prefix.len()` is the UTF-8 byte length) through the cursor
on the cursor's line, and replacement text `s`. -/
def mkItem (pre : List Char) (pos : Pos) (s : String) : CompletionItem :=
  { label := pre.asString ++ " " ++ s
    startLine := pos.line
    startChar := wsub (wsub pos.character (utf8Len pre)) 1
    endLine := pos.line
    endChar := pos.character
    newText := s }

/-- The tail of `Backend::completion` once the line text before the
cursor is in hand: split at the last backslash; no backslash or an empty
candidate gives `none`; otherwise one item per trie result. -/
def completionCore (km : Keymap) (t : List Char) (pos : Pos) :
    Option (List CompletionItem) :=
  match rsplitOnce t '\\' with
  | some (_, pre) =>
      if pre.length = 0 then none
      else some ((km.get pre).map (mkItem pre pos))
  | none => none

/-- `Backend::completion`: look up the document, take its
`position.line`-th line, keep the first `position.character` characters,
then extract the trigger and build the candidates. -/
def completion (km : Keymap) (docs : List (String × String)) (uri : String)
    (pos : Pos) : Option (List CompletionItem) :=
  match findDoc docs uri with
  | some d =>
      match (rustLines d.toList)[pos.line]? with
      | some l => completionCore km (l.take pos.character) pos
      | none => none
  | none => none

/-- The configuration document `{"G": {"l": {">>": ["ƛ"]}}}`, nested one
character per level. -/
def jG : Json :=
  Json.obj [("G", Json.obj [("l", Json.obj [(">>", Json.arr [Json.str "ƛ"])])])]

/-- A trie whose single branch is the (multi-byte) character `ƛ`. -/
def kmLam : Keymap :=
  Keymap.new (Json.obj [("ƛ", Json.obj [(">>", Json.arr [Json.str "x"])])])

/-- A trie whose single branch is the character `G`. -/
def kmG : Keymap :=
  Keymap.new (Json.obj [("G", Json.obj [(">>", Json.arr [Json.str "γ"])])])

/-! ## Lemmas about the trie -/

theorem flatten_eq_subForest : ∀ m, flatten m = ((subForest m).map Keymap.here).flatten :=
  flatten.induct (fun m => flatten m = ((subForest m).map Keymap.here).flatten)
    (fun t => flattenNode t = ((subNodes t).map Keymap.here).flatten)
    (by intro h cont ih; simp [flattenNode, subNodes, Keymap.here, ih])
    (by simp [flatten, subForest])
    (by intro _ k rest ih1 ih2; simp [flatten, subForest, ih1, ih2])

theorem flattenNode_eq (t : Keymap) :
    flattenNode t = ((subNodes t).map Keymap.here).flatten := by
  cases t with
  | mk h c => simp [flattenNode, subNodes, Keymap.here, flatten_eq_subForest]

theorem here_flatten_eq_subNodes (t : Keymap) :
    t.here ++ flatten t.cont = ((subNodes t).map Keymap.here).flatten := by
  cases t with
  | mk h c =>
      have := flattenNode_eq (Keymap.mk h c)
      simpa [flattenNode, Keymap.here, Keymap.cont] using this

theorem get_eq_walk : ∀ (p : List Char) (t : Keymap),
    t.get p = (match t.walk p with
      | some n => n.here ++ flatten n.cont
      | none => []) := by
  intro p
  induction p with
  | nil => intro t; simp [Keymap.get, Keymap.walk]
  | cons c rest ih =>
      intro t
      cases h : lookupC t.cont c with
      | none => simp [Keymap.get, Keymap.walk, h]
      | some k => simp [Keymap.get, Keymap.walk, h, ih]

theorem mem_flatten_of_lookupC : ∀ (m : List (Char × Keymap)) (c : Char) (k : Keymap),
    lookupC m c = some k → ∀ s : String, s ∈ flattenNode k → s ∈ flatten m := by
  intro m
  induction m with
  | nil => intro c k h; simp [lookupC] at h
  | cons e rest ih =>
      intro c k h s hs
      obtain ⟨c', k'⟩ := e
      by_cases hc : c' = c
      · subst hc
        simp [lookupC] at h
        subst h
        simp [flatten]
        exact Or.inl hs
      · simp [lookupC, hc] at h
        simp [flatten]
        exact Or.inr (ih c k h s hs)

theorem get_append_char_sub : ∀ (p : List Char) (t : Keymap) (c : Char) (s : String),
    s ∈ t.get (p ++ [c]) → s ∈ t.get p := by
  intro p
  induction p with
  | nil =>
      intro t c s hs
      simp only [List.nil_append] at hs
      cases h : lookupC t.cont c with
      | none => simp [Keymap.get, h] at hs
      | some k =>
          simp only [Keymap.get, h] at hs
          have : s ∈ flattenNode k := by
            cases k with
            | mk kh kc => simpa [Keymap.get, flattenNode, Keymap.here, Keymap.cont] using hs
          have hm := mem_flatten_of_lookupC t.cont c k h s this
          simp [Keymap.get]
          exact Or.inr hm
  | cons c' rest ih =>
      intro t c s hs
      simp only [List.cons_append] at hs
      cases h : lookupC t.cont c' with
      | none => simp [Keymap.get, h] at hs
      | some k =>
          simp only [Keymap.get, h] at hs ⊢
          exact ih k c s hs

/-! ## Lemmas about trigger extraction and span arithmetic -/

theorem rsplitOnce_eq_none_iff : ∀ (l : List Char) (c : Char),
    rsplitOnce l c = none ↔ c ∉ l := by
  intro l c
  induction l with
  | nil => simp [rsplitOnce]
  | cons x xs ih =>
      simp only [rsplitOnce]
      cases h : rsplitOnce xs c with
      | some p =>
          obtain ⟨b, a⟩ := p
          have hmem : c ∈ xs := by
            by_contra hc
            rw [← ih] at hc
            rw [h] at hc
            exact Option.noConfusion hc
          simp [hmem]
      | none =>
          have hnm : c ∉ xs := ih.mp h
          by_cases hx : x = c
          · simp [hx]
          · have hcx : c ≠ x := fun hh => hx hh.symm
            simp [hx, hnm, hcx]

theorem rsplitOnce_eq_some_iff : ∀ (l : List Char) (c : Char) (b a : List Char),
    rsplitOnce l c = some (b, a) ↔ (l = b ++ c :: a ∧ c ∉ a) := by
  intro l c
  induction l with
  | nil =>
      intro b a
      simp only [rsplitOnce]
      constructor
      · intro h; exact Option.noConfusion h
      · intro ⟨h, _⟩; exact absurd h (by simp)
  | cons x xs ih =>
      intro b a
      simp only [rsplitOnce]
      cases h : rsplitOnce xs c with
      | some p =>
          obtain ⟨b', a'⟩ := p
          have hxs : xs = b' ++ c :: a' ∧ c ∉ a' := (ih b' a').mp h
          have hmem : c ∈ xs := by rw [hxs.1]; simp
          simp only [Option.some.injEq, Prod.mk.injEq]
          constructor
          · rintro ⟨rfl, rfl⟩
            refine ⟨?_, hxs.2⟩
            rw [hxs.1]
            simp
          · rintro ⟨he, hna⟩
            cases b with
            | nil =>
                simp at he
                obtain ⟨_, hxsa⟩ := he
                subst hxsa
                exact absurd hmem hna
            | cons y b2 =>
                simp at he
                obtain ⟨hyx, hxs2⟩ := he
                have h2 := (ih b2 a).mpr ⟨hxs2, hna⟩
                rw [h2] at h
                have hb := (Option.some.inj h)
                simp at hb
                exact ⟨by simp [hyx, hb.1], hb.2.symm⟩
      | none =>
          have hnm : c ∉ xs := (rsplitOnce_eq_none_iff xs c).mp h
          by_cases hx : x = c
          · subst hx
            simp only [if_pos rfl, Option.some.injEq, Prod.mk.injEq]
            constructor
            · rintro ⟨rfl, rfl⟩
              exact ⟨by simp, hnm⟩
            · rintro ⟨he, hna⟩
              cases b with
              | nil => simpa using he
              | cons y b2 =>
                  simp at he
                  exact absurd (by rw [he.2]; simp : x ∈ xs) hnm
          · simp only [if_neg hx]
            constructor
            · intro he; exact Option.noConfusion he
            · rintro ⟨he, hna⟩
              exfalso
              cases b with
              | nil => simp at he; exact hx he.1
              | cons y b2 =>
                  simp at he
                  exact hnm (by rw [he.2]; simp)

theorem completion_eq_core (km : Keymap) (docs : List (String × String))
    (uri : String) (pos : Pos) (d : String) (l : List Char)
    (hd : findDoc docs uri = some d)
    (hl : (rustLines d.toList)[pos.line]? = some l) :
    completion km docs uri pos = completionCore km (l.take pos.character) pos := by
  have hl' : (rustLines d.data)[pos.line]? = some l := hl
  simp [completion, hd, hl']

theorem completionCore_of_not_mem (km : Keymap) (t : List Char) (pos : Pos)
    (h : '\\' ∉ t) : completionCore km t pos = none := by
  have := (rsplitOnce_eq_none_iff t '\\').mpr h
  simp [completionCore, this]

theorem completionCore_of_split (km : Keymap) (t b p : List Char) (pos : Pos)
    (hsp : t = b ++ '\\' :: p) (hnp : '\\' ∉ p) :
    completionCore km t pos =
      if p = [] then none else some ((km.get p).map (mkItem p pos)) := by
  have hs := (rsplitOnce_eq_some_iff t '\\' b p).mpr ⟨hsp, hnp⟩
  by_cases hp : p = []
  · simp [completionCore, hs, hp]
  · have : p.length ≠ 0 := fun h0 => hp (List.length_eq_zero.mp h0)
    simp [completionCore, hs, hp, this]

theorem wsub_exact (a b : Nat) (hb : b + 1 ≤ a) (ha : a < u32Mod) :
    wsub (wsub a b) 1 = a - b - 1 := by
  simp only [wsub, u32Mod] at *
  omega

/-! ## Lemmas about trie construction -/

theorem loadCont_append : ∀ (xs ys : List (String × Json)) (acc : List (Char × Keymap)),
    loadCont acc (xs ++ ys) = loadCont (loadCont acc xs) ys := by
  intro xs
  induction xs with
  | nil => intro ys acc; simp [loadCont]
  | cons e rest ih =>
      intro ys acc
      obtain ⟨k, v⟩ := e
      simp only [List.cons_append, loadCont]
      by_cases hk : k = ">>"
      · simp [hk, ih]
      · simp only [if_neg hk]
        cases k.toList with
        | nil => simp [ih]
        | cons c cs =>
            cases Keymap.load v with
            | some z => simp [ih]
            | none => simp [ih]

theorem lookupC_insertC_self : ∀ (m : List (Char × Keymap)) (c : Char) (v : Keymap),
    lookupC (insertC m c v) c = some v := by
  intro m
  induction m with
  | nil => intro c v; simp [insertC, lookupC]
  | cons e rest ih =>
      intro c v
      obtain ⟨c', v'⟩ := e
      by_cases hc : c' = c
      · simp [insertC, hc, lookupC]
      · simp [insertC, hc, lookupC, ih]

theorem objGet_skip : ∀ (f1 f2 : List (String × Json)) (k : String) (v : Json) (key : String),
    k ≠ key → objGet (f1 ++ (k, v) :: f2) key = objGet (f1 ++ f2) key := by
  intro f1
  induction f1 with
  | nil => intro f2 k v key hk; simp [objGet, hk]
  | cons e rest ih =>
      intro f2 k v key hk
      obtain ⟨k', v'⟩ := e
      by_cases h : k' = key
      · simp [objGet, h]
      · simp [objGet, h, ih _ _ _ _ hk]

theorem markerValues_skip (f1 f2 : List (String × Json)) (k : String) (v : Json)
    (hk : k ≠ ">>") :
    markerValues (f1 ++ (k, v) :: f2) = markerValues (f1 ++ f2) := by
  simp [markerValues, objGet_skip f1 f2 k v ">>" hk]

theorem loadCont_cons_congr (k k' : String) (v : Json)
    (hk : k ≠ ">>") (hk' : k' ≠ ">>") (hh : k.toList.head? = k'.toList.head?) :
    ∀ (acc : List (Char × Keymap)) (f2 : List (String × Json)),
    loadCont acc ((k, v) :: f2) = loadCont acc ((k', v) :: f2) := by
  intro acc f2
  simp only [loadCont, if_neg hk, if_neg hk']
  cases h1 : k.toList with
  | nil =>
      cases h2 : k'.toList with
      | nil => rfl
      | cons c cs => rw [h1, h2] at hh; simp at hh
  | cons c cs =>
      cases h2 : k'.toList with
      | nil => rw [h1, h2] at hh; simp at hh
      | cons c' cs' =>
          rw [h1, h2] at hh
          simp at hh
          rw [hh]

theorem loadCont_cons_skip (k : String) (v : Json)
    (hk : k ≠ ">>") (hv : Keymap.load v = none) :
    ∀ (acc : List (Char × Keymap)) (f2 : List (String × Json)),
    loadCont acc ((k, v) :: f2) = loadCont acc f2 := by
  intro acc f2
  simp only [loadCont, if_neg hk]
  cases k.toList with
  | nil => rfl
  | cons c cs => simp [hv]

/-! ## Claim theorems -/

/-- C1: `lookup` walks the tree one character at a time through the
children map; if at any step the current character has no matching child
the result is `[]`; if the whole prefix is consumed the result is the
reached node's own `here` values followed by the `here` values of every
node in the subtree below it, gathered recursively — every completion
registered at or below the prefix. -/
theorem lookup_walks_and_flattens (t : Keymap) (s : String) :
    t.lookup s = (match t.walk s.toList with
      | some n => ((subNodes n).map Keymap.here).flatten
      | none => []) := by
  rw [Keymap.lookup, get_eq_walk]
  cases h : t.walk s.toList with
  | none => rfl
  | some n => simp [here_flatten_eq_subNodes]

/-- C2: building the trie from `{"G": {"l": {">>": ["ƛ"]}}}` and looking
up the prefix `"Gl"` returns exactly `["ƛ"]`. -/
theorem lookup_roundtrip_Gl : (Keymap.new jG).lookup "Gl" = ["ƛ"] := rfl

/-- C3: during construction only the first character of a non-marker key
is used as the branching key (replacing a key by another key with the
same first character does not change the result), and of two sibling
keys sharing a first character, the child built from the later key in
iteration order wins, with no error. -/
theorem load_first_char_last_write :
    (∀ (f1 f2 : List (String × Json)) (k k' : String) (v : Json),
      k ≠ ">>" → k' ≠ ">>" → k.toList.head? = k'.toList.head? →
      Keymap.load (Json.obj (f1 ++ (k, v) :: f2)) =
        Keymap.load (Json.obj (f1 ++ (k', v) :: f2))) ∧
    (∀ (f : List (String × Json)) (k1 k2 : String) (v1 v2 : Json) (c : Char) (t2 : Keymap),
      k1 ≠ ">>" → k2 ≠ ">>" →
      k1.toList.head? = some c → k2.toList.head? = some c →
      Keymap.load v2 = some t2 →
      lookupC (Keymap.new (Json.obj (f ++ [(k1, v1), (k2, v2)]))).cont c = some t2) := by
  constructor
  · intro f1 f2 k k' v hk hk' hh
    have hmv : markerValues (f1 ++ (k, v) :: f2) = markerValues (f1 ++ (k', v) :: f2) := by
      rw [markerValues_skip f1 f2 k v hk, markerValues_skip f1 f2 k' v hk']
    have hlc : loadCont [] (f1 ++ (k, v) :: f2) = loadCont [] (f1 ++ (k', v) :: f2) := by
      rw [loadCont_append f1 ((k, v) :: f2) [], loadCont_append f1 ((k', v) :: f2) [],
        loadCont_cons_congr k k' v hk hk' hh]
    simp [Keymap.load, hmv, hlc]
  · intro f k1 k2 v1 v2 c t2 hk1 hk2 hh1 hh2 hv2
    have hcont : (Keymap.new (Json.obj (f ++ [(k1, v1), (k2, v2)]))).cont
        = loadCont [] (f ++ [(k1, v1), (k2, v2)]) := by
      simp [Keymap.new, Keymap.load, Keymap.cont]
    rw [hcont, loadCont_append f [(k1, v1), (k2, v2)] []]
    cases hl1 : k1.toList with
    | nil => rw [hl1] at hh1; simp at hh1
    | cons c1 cs1 =>
        rw [hl1] at hh1
        simp at hh1
        subst hh1
        cases hl2 : k2.toList with
        | nil => rw [hl2] at hh2; simp at hh2
        | cons c2 cs2 =>
            rw [hl2] at hh2
            simp at hh2
            subst hh2
            cases hv1 : Keymap.load v1 with
            | some z =>
                simp only [loadCont, if_neg hk1, if_neg hk2, hl1, hl2, hv1, hv2]
                exact lookupC_insertC_self _ _ t2
            | none =>
                simp only [loadCont, if_neg hk1, if_neg hk2, hl1, hl2, hv1, hv2]
                exact lookupC_insertC_self _ _ t2

/-- C3 witness: `{"ab": {}}` loads as `{"ac": {}}` does, and in
`{"ab": {">>": ["one"]}, "ac": {">>": ["two"]}}` the child at `'a'` is the
one built from the later key. -/
theorem load_first_char_last_write_w :
    Keymap.load (Json.obj [("ab", Json.obj [])]) =
      Keymap.load (Json.obj [("ac", Json.obj [])]) ∧
    lookupC (Keymap.new (Json.obj
        [("ab", Json.obj [(">>", Json.arr [Json.str "one"])]),
         ("ac", Json.obj [(">>", Json.arr [Json.str "two"])])])).cont 'a'
      = some (Keymap.mk ["two"] []) :=
  ⟨load_first_char_last_write.1 [] [] "ab" "ac" (Json.obj []) (by decide) (by decide) rfl,
   load_first_char_last_write.2 [] "ab" "ac"
     (Json.obj [(">>", Json.arr [Json.str "one"])])
     (Json.obj [(">>", Json.arr [Json.str "two"])]) 'a' (Keymap.mk ["two"] [])
     (by decide) (by decide) rfl rfl rfl⟩

/-- C4 counterexample: in `{"a": "x", "b": {">>": ["y"]}}` the key
`"a"`, whose value is not an object, contributes no child at all — the
children map of the result has no entry at `'a'`, rather than an empty
node `Keymap.mk [] []` there as the claim states (the sibling `'b'` is
built normally). -/
theorem load_nonobject_child_absent_cex :
    (Keymap.new (Json.obj [("a", Json.str "x"),
        ("b", Json.obj [(">>", Json.arr [Json.str "y"])])])).cont
      = [('b', Keymap.mk ["y"] [])] ∧
    lookupC (Keymap.new (Json.obj [("a", Json.str "x"),
        ("b", Json.obj [(">>", Json.arr [Json.str "y"])])])).cont 'a' = none :=
  ⟨rfl, rfl⟩

/-- C4 (amended): construction is total — a non-object top-level document
yields the empty trie; every object loads successfully; a non-marker key
whose value is not an object contributes nothing (the whole load equals
the load without that field, so the damage is confined to that absent
branch while siblings are built normally); and a non-string element of
the marker array is skipped. -/
theorem load_total_malformed_branch :
    (∀ j : Json, j.isObj = false → Keymap.new j = Keymap.mk [] []) ∧
    (∀ f : List (String × Json), ∃ t, Keymap.load (Json.obj f) = some t) ∧
    (∀ (f1 f2 : List (String × Json)) (k : String) (v : Json),
      k ≠ ">>" → Keymap.load v = none →
      Keymap.load (Json.obj (f1 ++ (k, v) :: f2)) = Keymap.load (Json.obj (f1 ++ f2))) ∧
    (∀ (f : List (String × Json)) (e1 e2 : List Json) (x : Json),
      objGet f ">>" = some (Json.arr (e1 ++ x :: e2)) → Json.asStr x = none →
      (Keymap.new (Json.obj f)).here = (e1 ++ e2).filterMap Json.asStr) := by
  refine ⟨?_, ?_, ?_, ?_⟩
  · intro j h
    cases j <;> simp_all [Json.isObj, Keymap.new, Keymap.load]
  · intro f
    exact ⟨_, rfl⟩
  · intro f1 f2 k v hk hv
    have hmv := markerValues_skip f1 f2 k v hk
    have hlc : loadCont [] (f1 ++ (k, v) :: f2) = loadCont [] (f1 ++ f2) := by
      rw [loadCont_append f1 ((k, v) :: f2) [], loadCont_append f1 f2 [],
        loadCont_cons_skip k v hk hv]
    simp [Keymap.load, hmv, hlc]
  · intro f e1 e2 x hg hx
    have hh : (Keymap.new (Json.obj f)).here = markerValues f := by
      simp [Keymap.new, Keymap.load, Keymap.here]
    rw [hh]
    simp [markerValues, hg, List.filterMap_append, List.filterMap_cons, hx]

/-- C4 witness: the amended statement at concrete inputs — a string
document gives the empty trie; `{"a": null}` loads; dropping
`"a": []` from `{"a": [], "b": {}}` preserves the load; a non-string
marker element is skipped. -/
theorem load_total_malformed_branch_w :
    Keymap.new (Json.str "zz") = Keymap.mk [] [] ∧
    (∃ t, Keymap.load (Json.obj [("a", Json.other)]) = some t) ∧
    Keymap.load (Json.obj [("a", Json.arr []), ("b", Json.obj [])])
      = Keymap.load (Json.obj [("b", Json.obj [])]) ∧
    (Keymap.new (Json.obj [(">>", Json.arr [Json.str "u", Json.other, Json.str "w"])])).here
      = ([Json.str "u", Json.str "w"] : List Json).filterMap Json.asStr :=
  ⟨load_total_malformed_branch.1 (Json.str "zz") rfl,
   load_total_malformed_branch.2.1 [("a", Json.other)],
   load_total_malformed_branch.2.2.1 [] [("b", Json.obj [])] "a" (Json.arr [])
     (by decide) rfl,
   load_total_malformed_branch.2.2.2 [(">>", Json.arr [Json.str "u", Json.other, Json.str "w"])]
     [Json.str "u"] [Json.str "w"] Json.other rfl rfl⟩

/-- C5: when the document and line exist, the handler examines the first
`position.character` characters of the line; if they contain no
backslash it returns no suggestions; if the text after the last
backslash is empty it returns no suggestions; otherwise the candidate
queried against the trie is exactly the text after the last backslash. -/
theorem completion_trigger_extraction (km : Keymap) (docs : List (String × String))
    (uri : String) (pos : Pos) (d : String) (l : List Char)
    (hd : findDoc docs uri = some d)
    (hl : (rustLines d.toList)[pos.line]? = some l) :
    ('\\' ∉ l.take pos.character → completion km docs uri pos = none) ∧
    (∀ b p : List Char, l.take pos.character = b ++ '\\' :: p → '\\' ∉ p →
      ((p = [] → completion km docs uri pos = none) ∧
       (p ≠ [] → completion km docs uri pos =
          some ((km.get p).map (mkItem p pos))))) := by
  have hc := completion_eq_core km docs uri pos d l hd hl
  refine ⟨?_, ?_⟩
  · intro hnm
    rw [hc, completionCore_of_not_mem _ _ _ hnm]
  · intro b p hsp hnp
    have h2 := completionCore_of_split km _ b p pos hsp hnp
    constructor
    · intro hp; rw [hc, h2, if_pos hp]
    · intro hp; rw [hc, h2, if_neg hp]

/-- C5 witness: with the stored document `"\G"` and the cursor at column
2, the candidate is `"G"` and the handler returns the mapped results. -/
theorem completion_trigger_extraction_w :
    completion kmG [("u", "\\G")] "u" ⟨0, 2⟩ =
      some ((kmG.get ['G']).map (mkItem ['G'] ⟨0, 2⟩)) :=
  ((completion_trigger_extraction kmG [("u", "\\G")] "u" ⟨0, 2⟩ "\\G" "\\G".toList
      rfl rfl).2 [] ['G'] (by decide) (by decide)).2 (by decide)

/-- C6 counterexample: with the trie for `{"ƛ": {">>": ["x"]}}`, the
document `"\ƛ"` and the cursor at column 2, the candidate is `"ƛ"`
(UTF-8 byte length 2, one character), and the produced item's start
column is the wrapped value `4294967295`, not
`cursor − len(prefix) − 1 = 2 − 2 − 1` (which truncates to `0` as a
column), and not the column after the trigger (`1`). -/
theorem completion_span_underflow_cex :
    completion kmLam [("u", "\\ƛ")] "u" ⟨0, 2⟩ =
      some [{ label := "ƛ x", startLine := 0, startChar := 4294967295,
              endLine := 0, endChar := 2, newText := "x" }] ∧
    (4294967295 : Nat) ≠ 2 - utf8Len ['ƛ'] - 1 ∧ (4294967295 : Nat) ≠ 1 :=
  ⟨rfl, by decide, by decide⟩

/-- C6 (amended): for a non-empty candidate, each string `s` from the
trie yields one item: label the candidate joined with `s`, replacement
text `s` alone, span on the cursor's line ending at the cursor and
starting at column `character − utf8_len(candidate) − 1` computed by
wrapping `u32` subtraction — equal to the exact difference whenever
`utf8_len(candidate) + 1 ≤ character < 2^32`. -/
theorem completion_candidate_items (km : Keymap) (docs : List (String × String))
    (uri : String) (pos : Pos) (d : String) (l b p : List Char)
    (hd : findDoc docs uri = some d)
    (hl : (rustLines d.toList)[pos.line]? = some l)
    (hsp : l.take pos.character = b ++ '\\' :: p)
    (hnp : '\\' ∉ p) (hne : p ≠ []) :
    completion km docs uri pos = some ((km.get p).map (fun s =>
      { label := p.asString ++ " " ++ s
        startLine := pos.line
        startChar := wsub (wsub pos.character (utf8Len p)) 1
        endLine := pos.line
        endChar := pos.character
        newText := s })) ∧
    (utf8Len p + 1 ≤ pos.character → pos.character < u32Mod →
      wsub (wsub pos.character (utf8Len p)) 1 = pos.character - utf8Len p - 1) := by
  constructor
  · rw [completion_eq_core km docs uri pos d l hd hl,
      completionCore_of_split km _ b p pos hsp hnp, if_neg hne]
    rfl
  · intro h1 h2
    exact wsub_exact pos.character (utf8Len p) h1 h2

/-- C6 witness: the amended statement at the document `"\G"`, cursor
column 2, candidate `"G"`. -/
theorem completion_candidate_items_w :
    completion kmG [("u", "\\G")] "u" ⟨0, 2⟩ = some ((kmG.get ['G']).map (fun s =>
      { label := (['G'] : List Char).asString ++ " " ++ s
        startLine := 0
        startChar := wsub (wsub 2 (utf8Len ['G'])) 1
        endLine := 0
        endChar := 2
        newText := s })) ∧
    wsub (wsub 2 (utf8Len ['G'])) 1 = 2 - utf8Len ['G'] - 1 := by
  have h := completion_candidate_items kmG [("u", "\\G")] "u" ⟨0, 2⟩ "\\G" "\\G".toList
    [] ['G'] rfl rfl (by decide) (by decide) (by decide)
  exact ⟨h.1, h.2 (by decide) (by decide)⟩

/-- C7 counterexample: with the document `"\G"` (line length 2) and a
cursor column 99 beyond the line's length, the handler does not return
"no suggestions": it truncates the line at its end, finds the candidate
`"G"`, and returns one item (whose span even ends at the out-of-range
column 99). -/
theorem completion_cursor_beyond_cex :
    completion kmG [("u", "\\G")] "u" ⟨0, 99⟩ =
      some [{ label := "G γ", startLine := 0, startChar := 97,
              endLine := 0, endChar := 99, newText := "γ" }] ∧
    ("\\G".toList).length < 99 :=
  ⟨rfl, by decide⟩

/-- C7 (amended): a request whose document is not in the store, or whose
line index is beyond the document's lines, returns no suggestions and no
error; a cursor column beyond the line's length is not rejected — the
whole line is kept by the truncation and processing continues normally
(so such a request may return suggestions). -/
theorem completion_out_of_bounds_none :
    (∀ (km : Keymap) (docs : List (String × String)) (uri : String) (pos : Pos),
      findDoc docs uri = none → completion km docs uri pos = none) ∧
    (∀ (km : Keymap) (docs : List (String × String)) (uri : String) (pos : Pos)
      (d : String), findDoc docs uri = some d →
      (rustLines d.toList)[pos.line]? = none → completion km docs uri pos = none) ∧
    (∀ (km : Keymap) (docs : List (String × String)) (uri : String) (pos : Pos)
      (d : String) (l : List Char), findDoc docs uri = some d →
      (rustLines d.toList)[pos.line]? = some l → l.length ≤ pos.character →
      completion km docs uri pos = completionCore km l pos) := by
  refine ⟨?_, ?_, ?_⟩
  · intro km docs uri pos h
    simp [completion, h]
  · intro km docs uri pos d h hl
    have hl' : (rustLines d.data)[pos.line]? = none := hl
    simp [completion, h, hl']
  · intro km docs uri pos d l h hl hlen
    rw [completion_eq_core km docs uri pos d l h hl, List.take_of_length_le hlen]

/-- C7 witness: the amended statement at concrete inputs — unknown
document, line index past the single line, and a cursor column past the
line's end. -/
theorem completion_out_of_bounds_none_w :
    completion kmG [] "u" ⟨0, 0⟩ = none ∧
    completion kmG [("u", "\\G")] "u" ⟨3, 0⟩ = none ∧
    completion kmG [("u", "\\G")] "u" ⟨0, 5⟩ = completionCore kmG "\\G".toList ⟨0, 5⟩ :=
  ⟨completion_out_of_bounds_none.1 kmG [] "u" ⟨0, 0⟩ rfl,
   completion_out_of_bounds_none.2.1 kmG [("u", "\\G")] "u" ⟨3, 0⟩ "\\G" rfl rfl,
   completion_out_of_bounds_none.2.2 kmG [("u", "\\G")] "u" ⟨0, 5⟩ "\\G" "\\G".toList
     rfl rfl (by decide)⟩

/-- C8: looking up the empty prefix returns every terminal value present
anywhere in the tree (the full flatten, in traversal order), and its
length is the sum of the `here` lengths over all nodes of the tree. -/
theorem lookup_empty_full_flatten (t : Keymap) :
    t.lookup "" = ((subNodes t).map Keymap.here).flatten ∧
    (t.lookup "").length = ((subNodes t).map (fun n => n.here.length)).sum := by
  have h0 : ("" : String).toList = [] := rfl
  have h1 : t.lookup "" = ((subNodes t).map Keymap.here).flatten := by
    rw [Keymap.lookup, h0]
    simp only [Keymap.get]
    exact here_flatten_eq_subNodes t
  refine ⟨h1, ?_⟩
  rw [h1, List.length_flatten, List.map_map]
  rfl

/-- Characters of a string with one pushed at the end. -/
theorem strPush_toList (s : String) (c : Char) : (s.push c).toList = s.toList ++ [c] := by
  cases s
  rfl

/-- C9: extending the prefix by one character never introduces an output
that was unreachable from the shorter prefix — every string in
`lookup (q.push c)` also occurs in `lookup q`. -/
theorem lookup_extend_monotone (t : Keymap) (q : String) (c : Char) (s : String)
    (hs : s ∈ t.lookup (q.push c)) : s ∈ t.lookup q := by
  rw [Keymap.lookup, strPush_toList] at hs
  rw [Keymap.lookup]
  exact get_append_char_sub q.toList t c s hs

/-- C9 witness: `"ƛ"`, an output of `lookup "Gl"`, occurs in
`lookup "G"`. -/
theorem lookup_extend_monotone_w : "ƛ" ∈ (Keymap.new jG).lookup "G" :=
  lookup_extend_monotone (Keymap.new jG) "G" 'l' "ƛ" (by decide)

/-- C10: when the document and line exist, the text examined before the
cursor is the first `position.character` characters (Unicode code
points) of the line, and each produced item's start column is
`position.character` minus the candidate's UTF-8 byte length minus 1,
computed by wrapping `u32` subtraction — the exact difference whenever
no underflow occurs. -/
theorem completion_chars_and_bytes (km : Keymap) (docs : List (String × String))
    (uri : String) (pos : Pos) (d : String) (l : List Char)
    (hd : findDoc docs uri = some d)
    (hl : (rustLines d.toList)[pos.line]? = some l) :
    completion km docs uri pos = completionCore km (l.take pos.character) pos ∧
    (∀ b p : List Char, l.take pos.character = b ++ '\\' :: p → '\\' ∉ p → p ≠ [] →
      completion km docs uri pos = some ((km.get p).map (mkItem p pos)) ∧
      (∀ s : String, (mkItem p pos s).startChar = wsub (wsub pos.character (utf8Len p)) 1) ∧
      (utf8Len p + 1 ≤ pos.character → pos.character < u32Mod →
        wsub (wsub pos.character (utf8Len p)) 1 = pos.character - utf8Len p - 1)) := by
  refine ⟨completion_eq_core km docs uri pos d l hd hl, ?_⟩
  intro b p hsp hnp hne
  refine ⟨?_, fun s => rfl, fun h1 h2 => wsub_exact _ _ h1 h2⟩
  rw [completion_eq_core km docs uri pos d l hd hl,
    completionCore_of_split km _ b p pos hsp hnp, if_neg hne]

/-- C10 witness: the statement at the document `"a\G"` with the cursor
at column 3 (candidate `"G"`, one byte, no underflow). -/
theorem completion_chars_and_bytes_w :
    completion kmG [("u", "a\\G")] "u" ⟨0, 3⟩ =
      completionCore kmG ("a\\G".toList.take 3) ⟨0, 3⟩ ∧
    completion kmG [("u", "a\\G")] "u" ⟨0, 3⟩ =
      some ((kmG.get ['G']).map (mkItem ['G'] ⟨0, 3⟩)) ∧
    wsub (wsub 3 (utf8Len ['G'])) 1 = 3 - utf8Len ['G'] - 1 := by
  have h := completion_chars_and_bytes kmG [("u", "a\\G")] "u" ⟨0, 3⟩ "a\\G"
    "a\\G".toList rfl rfl
  have h2 := h.2 ['a'] ['G'] (by decide) (by decide) (by decide)
  exact ⟨h.1, h2.1, h2.2.2 (by decide) (by decide)⟩

end NaiveInputLsp
